import Mathlib

/-!
Shallow embedding of the array-based tree classes of `src/trees.h` (namespace `cm`)
together with the arithmetic-progression helper `cm::arithm_sum` of `src/numeric.h`
that the tree geometry uses, and proofs about them.

Conventions of the embedding:
* `size_t` values are modelled as `Nat`; wherever the C++ expression can
  underflow a `size_t` subtraction on the inputs a theorem quantifies over,
  the definition carries a comment and is written so that it reproduces the
  wrapped value (or flags the resulting out-of-bounds vector access).
* `std::vector<Node> m_data` is modelled as a `List α`; the member functions
  that mutate it become state-passing functions returning the new list.
* a thrown `std::range_error` becomes an explicit error value (`TreeError`);
  an out-of-bounds `operator[]` access - undefined behaviour in C++ - is
  flagged as `TreeError.oobAccess`.
* the double-precision formulas (`std::pow`, `std::sqrt`, `std::round`) are
  modelled by their exact integer values, which the doubles realise exactly for
  every index an in-memory tree can have; for the level formula the agreement
  with the exact real-valued rounded square root is proved below
  (`recombinantBTree.level_eq_round_sqrt`, `recombinantTTree.level_eq_floor_sqrt`).
-/

namespace cm

/-- Model of `cm::arithm_sum<size_t>(n, a1, d)` (src/numeric.h):
the C++ returns `round((2*a1 + (n-1)*d) / 2.0 * n)` where `2*a1 + (n-1)*d` is
computed in `size_t`.  For `n = 0` the underflow of `n - 1` is cancelled by the
final multiplication by `n = 0`, so the result is `0`, matching truncated `Nat`
subtraction.  For `n ≥ 1` the product `(2*a1 + (n-1)*d) * n` is even whenever
`d` is (or `a1`, `d` are the `1, 1` the trees pass), so the division by 2 is
exact and the rounding is the identity. -/
def arithm_sum (n a1 d : Nat) : Nat :=
  (2 * a1 + (n - 1) * d) * n / 2

/-- The distinct `std::range_error`s thrown by the tree classes, plus a marker
for an out-of-bounds `m_data` access (undefined behaviour in the C++). -/
inductive TreeError where
  | leftBoundary
  | rightBoundary
  | centerBoundary
  | levelMismatch
  | notFound
  | oobAccess
deriving DecidableEq

/-- Outcome of running a mutating member function on a tree: the backing
sequence when the call finished or when the exception left it, the exception
(if any) and the returned vector of indices. -/
structure RunResult (α : Type) where
  data : List α
  err : Option TreeError
  ret : List Nat
deriving DecidableEq

section BTree

variable {α : Type} [Inhabited α]

/-- `cm::bTree<Node>`: fixed-depth binary tree over a flat vector. -/
structure bTree (α : Type) where
  m_depth : Nat
  m_data : List α

namespace bTree

/-- `bTree::numElems(level)`: `pow(2, level+1) - 1` computed in doubles, exact
for any level a real tree can have. -/
def numElems (level : Nat) : Nat := 2 ^ (level + 1) - 1

/-- The constructor `bTree(depth)`: `m_data(numElems(depth))` value-initialises
`numElems depth` default nodes. -/
def ofDepth (α : Type) [Inhabited α] (depth : Nat) : bTree α :=
  ⟨depth, List.replicate (numElems depth) default⟩

/-- `bTree::totalElems()`: `m_data.size()`. -/
def totalElems (t : bTree α) : Nat := t.m_data.length

/-- `bTree::goUp`. -/
def goUp (ind : Nat) : Nat := if ind = 0 then 0 else (ind - 1) / 2

/-- `bTree::goDownLeft`. -/
def goDownLeft (ind : Nat) : Nat := 2 * ind + 1

/-- `bTree::goDownRight`. -/
def goDownRight (ind : Nat) : Nat := 2 * ind + 2

/-- The recursive `bTree::copySubTree(indS, indT, target_indices)` (the
in-place overload).  `len` is `m_data.size()`, which never changes during the
recursion; the returned pair is the final `m_data` and the indices pushed into
`target_indices`, in push order. -/
def copySubTreeAux (len : Nat) (data : List α) (indS indT : Nat) :
    List α × List Nat :=
  if 2 * indS + 1 < len ∧ 0 < 2 * indS + 1 ∧ 2 * indT + 1 < len ∧ 0 < 2 * indT + 1 then
    let p := copySubTreeAux len (data.set indT (data.getD indS default))
      (2 * indS + 1) (2 * indT + 1)
    if 2 * indS + 2 < len ∧ 0 < 2 * indS + 2 ∧ 2 * indT + 2 < len ∧ 0 < 2 * indT + 2 then
      let q := copySubTreeAux len p.1 (2 * indS + 2) (2 * indT + 2)
      (q.1, indT :: (p.2 ++ q.2))
    else
      (p.1, indT :: p.2)
  else
    (data.set indT (data.getD indS default), [indT])
termination_by len - indS
decreasing_by
  · omega
  · omega

/-- `bTree::copySubTree(indS, indT)`: runs the recursion and returns the
vector of target indices (paired here with the final backing sequence). -/
def copySubTree (data : List α) (indS indT : Nat) : List α × List Nat :=
  copySubTreeAux data.length data indS indT

end bTree

end BTree

section RecombinantBTree

variable {α : Type} [Inhabited α]

/-- `cm::recombinantBTree<Node>`: triangular lattice over a flat vector. -/
structure recombinantBTree (α : Type) where
  m_depth : Nat
  m_data : List α

namespace recombinantBTree

/-- `recombinantBTree::level(ind)`: the C++ returns
`round(sqrt(1 + 2*ind) - 1)` computed in doubles.  Over the reals,
`round(sqrt(1+2i) - 1)` is the unique `k` with `(2k+1)² ≤ 8i+4 < (2k+3)²`,
which is `(Nat.sqrt (8i+4) - 1) / 2`; the doubles realise this exactly for
every index an in-memory tree can have.  The agreement with the rounded real
square root is proved in `level_eq_round_sqrt`. -/
def level (ind : Nat) : Nat := (Nat.sqrt (8 * ind + 4) - 1) / 2

/-- `recombinantBTree::level_size`. -/
def level_size (ind : Nat) : Nat := level ind + 1

/-- `recombinantBTree::left_boundary`: `arithm_sum(level, 1, 1)`. -/
def left_boundary (level : Nat) : Nat := arithm_sum level 1 1

/-- `recombinantBTree::right_boundary`: `arithm_sum(level + 1, 1, 1) - 1`. -/
def right_boundary (level : Nat) : Nat := arithm_sum (level + 1) 1 1 - 1

/-- `recombinantBTree::numElems(level)`: `arithm_sum(level + 1, 1, 1)`. -/
def numElems (level : Nat) : Nat := arithm_sum (level + 1) 1 1

/-- The constructor `recombinantBTree(depth)`: delegates to
`bTree(depth, numElems(depth))`. -/
def ofDepth (α : Type) [Inhabited α] (depth : Nat) : recombinantBTree α :=
  ⟨depth, List.replicate (numElems depth) default⟩

/-- `bTree::totalElems()` on a `recombinantBTree`. -/
def totalElems (t : recombinantBTree α) : Nat := t.m_data.length

/-- `recombinantBTree::goUpLeft`: left-boundary nodes have no left parent. -/
def goUpLeft (ind : Nat) : Except TreeError Nat :=
  if ind = left_boundary (level ind) then .error .leftBoundary
  else .ok (ind - level_size ind)

/-- `recombinantBTree::goUpRight`: right-boundary nodes have no right parent.
The C++ returns `ind - level_size(ind) + 1` evaluated left to right in
`size_t`; since `level_size ind ≤ ind + 1` always holds (see
`level_size_le_succ`), the wrap of the intermediate `ind - level_size(ind)`
cancels and the value is exactly `ind + 1 - level_size ind`, which is how it
is written here (`Nat` truncation of the literal left-to-right reading would
differ, e.g. at `ind = 1`). -/
def goUpRight (ind : Nat) : Except TreeError Nat :=
  if ind = right_boundary (level ind) then .error .rightBoundary
  else .ok (ind + 1 - level_size ind)

/-- `recombinantBTree::goUp`: alias for `goUpLeft`. -/
def goUp (ind : Nat) : Except TreeError Nat := goUpLeft ind

/-- `recombinantBTree::goDownLeft`. -/
def goDownLeft (ind : Nat) : Nat := ind + level_size ind

/-- `recombinantBTree::goDownRight`. -/
def goDownRight (ind : Nat) : Nat := ind + level_size ind + 1

end recombinantBTree

end RecombinantBTree

namespace recombinantBTree

/-! Geometry facts about the triangular layout.  `arithm_sum n 1 1` is the
`n`-th triangular number, and `level` is its exact inverse. -/

theorem arithm_sum_one_one (n : Nat) : 2 * arithm_sum n 1 1 = n * (n + 1) := by
  unfold arithm_sum
  rcases n with _ | m
  · rfl
  · have hsub : m + 1 - 1 = m := rfl
    rw [hsub]
    have h1 : (2 * 1 + m * 1) * (m + 1) = (m + 1) * (m + 1 + 1) := by ring
    rw [h1]
    have h2 : 2 ∣ (m + 1) * (m + 1 + 1) := (Nat.even_mul_succ_self (m + 1)).two_dvd
    rw [Nat.mul_div_cancel' h2]

theorem two_mul_left_boundary (l : Nat) : 2 * left_boundary l = l * (l + 1) :=
  arithm_sum_one_one l

theorem left_boundary_succ (l : Nat) :
    left_boundary (l + 1) = left_boundary l + (l + 1) := by
  have h1 := two_mul_left_boundary l
  have h2 := two_mul_left_boundary (l + 1)
  have h3 : (l + 1) * (l + 1 + 1) = l * (l + 1) + 2 * (l + 1) := by ring
  omega

theorem left_boundary_zero : left_boundary 0 = 0 := rfl

theorem right_boundary_succ_eq (l : Nat) :
    right_boundary l + 1 = left_boundary (l + 1) := by
  have h1 := two_mul_left_boundary (l + 1)
  have h2 : 2 ≤ (l + 1) * (l + 1 + 1) := by nlinarith
  unfold right_boundary left_boundary at *
  omega

theorem left_boundary_lt_succ (l : Nat) : left_boundary l < left_boundary (l + 1) := by
  have := left_boundary_succ l
  omega

theorem left_boundary_mono {l m : Nat} (h : l ≤ m) :
    left_boundary l ≤ left_boundary m := by
  induction m with
  | zero =>
    have hl : l = 0 := by omega
    rw [hl]
  | succ k ih =>
    rcases Nat.lt_or_ge l (k + 1) with h' | h'
    · have ha := left_boundary_succ k
      have hb := ih (by omega)
      omega
    · have hl : l = k + 1 := by omega
      rw [hl]

theorem numElems_eq_left_boundary (d : Nat) : numElems d = left_boundary (d + 1) := rfl

/-- The closed-form level is the exact inverse of the triangular layout:
`level i = L` iff `i` lies in `[left_boundary L, left_boundary (L+1))`. -/
theorem level_eq_iff (i L : Nat) :
    level i = L ↔ left_boundary L ≤ i ∧ i < left_boundary (L + 1) := by
  have hs1 : Nat.sqrt (8 * i + 4) * Nat.sqrt (8 * i + 4) ≤ 8 * i + 4 :=
    Nat.sqrt_le (8 * i + 4)
  have hs2 : 8 * i + 4 < (Nat.sqrt (8 * i + 4) + 1) * (Nat.sqrt (8 * i + 4) + 1) :=
    Nat.lt_succ_sqrt (8 * i + 4)
  have hs0 : 2 ≤ Nat.sqrt (8 * i + 4) := Nat.le_sqrt.2 (by omega)
  have htL : 2 * left_boundary L = L * (L + 1) := two_mul_left_boundary L
  have htL1 : 2 * left_boundary (L + 1) = (L + 1) * (L + 1 + 1) :=
    two_mul_left_boundary (L + 1)
  constructor
  · intro h
    have hk : 2 * L + 1 ≤ Nat.sqrt (8 * i + 4) ∧ Nat.sqrt (8 * i + 4) ≤ 2 * L + 2 := by
      unfold level at h
      omega
    have hA : (2 * L + 1) * (2 * L + 1) ≤ 8 * i + 4 :=
      le_trans (Nat.mul_le_mul hk.1 hk.1) hs1
    have hB : 8 * i + 4 < (2 * L + 3) * (2 * L + 3) :=
      lt_of_lt_of_le hs2 (Nat.mul_le_mul (by omega) (by omega))
    have hA' : (2 * L + 1) * (2 * L + 1) = 4 * (L * (L + 1)) + 1 := by ring
    have hB' : (2 * L + 3) * (2 * L + 3) = 4 * ((L + 1) * (L + 1 + 1)) + 1 := by ring
    omega
  · rintro ⟨h1, h2⟩
    have hlo : 2 * L + 1 ≤ Nat.sqrt (8 * i + 4) := by
      rw [Nat.le_sqrt]
      calc (2 * L + 1) * (2 * L + 1) = 4 * (L * (L + 1)) + 1 := by ring
        _ = 4 * (2 * left_boundary L) + 1 := by rw [htL]
        _ ≤ 8 * i + 4 := by omega
    have hhi : Nat.sqrt (8 * i + 4) < 2 * L + 3 := by
      rw [Nat.sqrt_lt]
      calc 8 * i + 4 < 4 * (2 * left_boundary (L + 1)) + 1 := by omega
        _ = 4 * ((L + 1) * (L + 1 + 1)) + 1 := by rw [htL1]
        _ = (2 * L + 3) * (2 * L + 3) := by ring
    unfold level
    omega

theorem left_boundary_level_le (i : Nat) : left_boundary (level i) ≤ i :=
  ((level_eq_iff i (level i)).1 rfl).1

theorem lt_left_boundary_succ_level (i : Nat) : i < left_boundary (level i + 1) :=
  ((level_eq_iff i (level i)).1 rfl).2

theorem le_right_boundary_level (i : Nat) : i ≤ right_boundary (level i) := by
  have h1 := lt_left_boundary_succ_level i
  have h2 := right_boundary_succ_eq (level i)
  omega

theorem level_left_boundary (L : Nat) : level (left_boundary L) = L :=
  (level_eq_iff _ _).2 ⟨le_refl _, left_boundary_lt_succ L⟩

theorem level_right_boundary (L : Nat) : level (right_boundary L) = L := by
  refine (level_eq_iff _ _).2 ⟨?_, ?_⟩
  · have h1 := right_boundary_succ_eq L
    have h2 := left_boundary_succ L
    omega
  · have h1 := right_boundary_succ_eq L
    omega

theorem level_le_self (ind : Nat) : level ind ≤ ind := by
  have h1 := left_boundary_level_le ind
  have h2 := two_mul_left_boundary (level ind)
  have h3 : level ind ≤ level ind * level ind := by
    rcases Nat.eq_zero_or_pos (level ind) with h | h
    · rw [h]
    · exact Nat.le_mul_of_pos_left _ h
  have h4 : level ind * (level ind + 1) = level ind * level ind + level ind := by ring
  omega

theorem level_size_le_succ (ind : Nat) : level_size ind ≤ ind + 1 := by
  have := level_le_self ind
  unfold level_size
  omega

end recombinantBTree

section RecombinantTTree

variable {α : Type} [Inhabited α]

/-- `cm::recombinantTTree<Node>`: square (trinomial) lattice over a flat vector. -/
structure recombinantTTree (α : Type) where
  m_depth : Nat
  m_data : List α

namespace recombinantTTree

/-- `recombinantTTree::level(ind)`: the C++ returns `floor(sqrt(ind))` computed
in doubles, which is exactly `Nat.sqrt ind` for every index an in-memory tree
can have (see `level_eq_floor_sqrt`). -/
def level (ind : Nat) : Nat := Nat.sqrt ind

/-- `recombinantTTree::level_size`. -/
def level_size (ind : Nat) : Nat := 1 + 2 * level ind

/-- `recombinantTTree::left_boundary`. -/
def left_boundary (level : Nat) : Nat := level * level

/-- `recombinantTTree::right_boundary`. -/
def right_boundary (level : Nat) : Nat := (level + 1) * (level + 1) - 1

/-- `recombinantTTree::numElems(level)`. -/
def numElems (level : Nat) : Nat := (1 + level) * (1 + level)

/-- The constructor `recombinantTTree(depth)`: delegates to
`bTree(depth, numElems(depth))`. -/
def ofDepth (α : Type) [Inhabited α] (depth : Nat) : recombinantTTree α :=
  ⟨depth, List.replicate (numElems depth) default⟩

/-- `bTree::totalElems()` on a `recombinantTTree`. -/
def totalElems (t : recombinantTTree α) : Nat := t.m_data.length

/-- `recombinantTTree::goUpLeft`: the first two nodes of a level cannot go up
left. -/
def goUpLeft (ind : Nat) : Except TreeError Nat :=
  if ind = left_boundary (level ind) ∨ ind = left_boundary (level ind) + 1 then
    .error .leftBoundary
  else .ok (ind - level_size ind)

/-- `recombinantTTree::goUpCenter`: the first and last node of a level cannot
go up straight.  The C++ returns `ind - level_size(ind) + 1` evaluated left to
right in `size_t`; on the non-throwing branch `level_size ind ≤ ind + 1`, so
the wrap of the intermediate difference cancels and the value is exactly
`ind + 1 - level_size ind`, which is how it is written here. -/
def goUpCenter (ind : Nat) : Except TreeError Nat :=
  if ind = left_boundary (level ind) ∨ ind = right_boundary (level ind) then
    .error .centerBoundary
  else .ok (ind + 1 - level_size ind)

/-- `recombinantTTree::goUpRight`: the last two nodes of a level cannot go up
right.  In the guard, `right_boundary(level(ind)) - 1` underflows `size_t` only
at level 0, where `ind = right_boundary = 0` already triggers the first
disjunct, so the truncated `Nat` subtraction decides identically.  The result
`ind - level_size(ind) + 2` is written `ind + 2 - level_size ind` for the same
reason as in `goUpCenter`. -/
def goUpRight (ind : Nat) : Except TreeError Nat :=
  if ind = right_boundary (level ind) ∨ ind = right_boundary (level ind) - 1 then
    .error .rightBoundary
  else .ok (ind + 2 - level_size ind)

/-- `recombinantTTree::goUp`: alias for `goUpLeft`. -/
def goUp (ind : Nat) : Except TreeError Nat := goUpLeft ind

/-- `recombinantTTree::goDownLeft`. -/
def goDownLeft (ind : Nat) : Nat := ind + level_size ind

/-- `recombinantTTree::goDownCenter`. -/
def goDownCenter (ind : Nat) : Nat := ind + level_size ind + 1

/-- `recombinantTTree::goDownRight`. -/
def goDownRight (ind : Nat) : Nat := ind + level_size ind + 2

end recombinantTTree

end RecombinantTTree

namespace recombinantTTree

/-- The square-layout level recovery is the exact inverse of the layout. -/
theorem levelT_eq_iff (i L : Nat) :
    level i = L ↔ left_boundary L ≤ i ∧ i < left_boundary (L + 1) := by
  unfold level left_boundary
  constructor
  · intro h
    constructor
    · rw [← h]
      exact Nat.sqrt_le i
    · rw [← h]
      exact Nat.lt_succ_sqrt i
  · rintro ⟨h1, h2⟩
    exact ((Nat.eq_sqrt).2 ⟨h1, h2⟩).symm

theorem left_boundaryT_level_le (i : Nat) : left_boundary (level i) ≤ i :=
  ((levelT_eq_iff i (level i)).1 rfl).1

theorem right_boundaryT_succ_eq (l : Nat) :
    right_boundary l + 1 = left_boundary (l + 1) := by
  unfold right_boundary left_boundary
  have h : 1 ≤ (l + 1) * (l + 1) := by nlinarith
  omega

theorem le_right_boundaryT_level (i : Nat) : i ≤ right_boundary (level i) := by
  have h1 := ((levelT_eq_iff i (level i)).1 rfl).2
  have h2 := right_boundaryT_succ_eq (level i)
  omega

theorem levelT_left_boundary (L : Nat) : level (left_boundary L) = L := by
  refine (levelT_eq_iff _ _).2 ⟨le_refl _, ?_⟩
  unfold left_boundary
  nlinarith

theorem levelT_right_boundary (L : Nat) : level (right_boundary L) = L := by
  refine (levelT_eq_iff _ _).2 ⟨?_, ?_⟩
  · have h := right_boundaryT_succ_eq L
    unfold left_boundary right_boundary at *
    nlinarith
  · have h := right_boundaryT_succ_eq L
    omega

theorem level_sizeT_le_of_ne_left (ind : Nat)
    (h : ind ≠ left_boundary (level ind)) (h' : ind ≠ left_boundary (level ind) + 1) :
    level_size ind ≤ ind := by
  have h1 := left_boundaryT_level_le ind
  have h2 : left_boundary (level ind) = level ind * level ind := rfl
  have h4 : level ind * level ind + 2 ≥ 2 * level ind + 1 := by nlinarith
  unfold level_size
  omega

theorem level_sizeT_le_succ (ind : Nat) : level_size ind ≤ ind + 2 := by
  have h1 := left_boundaryT_level_le ind
  have h2 : left_boundary (level ind) = level ind * level ind := rfl
  have h4 : level ind * level ind + 1 ≥ 2 * level ind := by nlinarith
  unfold level_size
  omega

end recombinantTTree

section CopyMachinery

variable {α : Type}

/-- Model of `std::fill(m_data.begin() + a, m_data.begin() + b, v)`: writes `v`
at every position of `[a, b)`.  `List.set` ignores out-of-range positions; on
every call the source makes, `b ≤ m_data.size()` holds, so nothing is clamped. -/
def fillRange (data : List α) (a b : Nat) (v : α) : List α :=
  if a < b then fillRange (data.set a v) (a + 1) b v else data
termination_by b - a

theorem fillRange_length (data : List α) (a b : Nat) (v : α) :
    (fillRange data a b v).length = data.length := by
  induction data, a, b, v using fillRange.induct with
  | case1 data a b v h ih =>
    rw [fillRange, if_pos h]
    rw [ih, List.length_set]
  | case2 data a b v h =>
    rw [fillRange, if_neg h]

theorem fillRange_getElem? (data : List α) (a b : Nat) (v : α) (j : Nat) :
    (fillRange data a b v)[j]? =
      if a ≤ j ∧ j < b ∧ j < data.length then some v else data[j]? := by
  induction data, a, b, v using fillRange.induct with
  | case1 data a b v h ih =>
    rw [fillRange, if_pos h, ih, List.length_set, List.getElem?_set]
    split_ifs <;>
      first
      | rfl
      | (exfalso; omega)
      | rw [List.getElem?_eq_none (by omega)]
  | case2 data a b v h =>
    rw [fillRange, if_neg h, if_neg (by omega)]

variable [Inhabited α]

namespace recombinantBTree

/-- The body of the `while` loop of the non-recursive
`recombinantBTree::copySubTreeLeft` (src/trees.h, lines 616-626): starting at
level `l`, while `last = right_boundary l` is inside the vector, the C++ does
`m_data[last] = m_data[last - 1]` and moves to the next level.  `last - 1` is
computed in `size_t`: when `last = 0` (only at level 0) it wraps to
`SIZE_MAX`, an out-of-bounds read of `m_data`, which this model flags as
`TreeError.oobAccess` instead of continuing. -/
def copyLeftLoop (data : List α) (l : Nat) : List α × Option TreeError :=
  if right_boundary l < data.length then
    if right_boundary l = 0 then
      (data, some .oobAccess)
    else
      copyLeftLoop
        (data.set (right_boundary l) (data.getD (right_boundary l - 1) default))
        (l + 1)
  else
    (data, none)
termination_by data.length - right_boundary l
decreasing_by
  have h1 := right_boundary_succ_eq l
  have h2 := right_boundary_succ_eq (l + 1)
  have h3 := left_boundary_lt_succ (l + 1)
  simp only [List.length_set]
  omega

/-- `recombinantBTree::copySubTreeLeft(indS, indT)` (non-recursive version):
checks the level precondition, runs the per-level pass, and returns the
(always empty) vector `ret`. -/
def copySubTreeLeft (data : List α) (indS indT : Nat) : RunResult α :=
  if level indS = level indT then
    ⟨(copyLeftLoop data (level indS)).1, (copyLeftLoop data (level indS)).2, []⟩
  else
    ⟨data, some .levelMismatch, []⟩

/-- The body of the `while` loop of the non-recursive
`recombinantBTree::copySubTreeRight` (src/trees.h, lines 644-659): on each
level `l` the source position is `left_boundary l + offset` (the C++ keeps a
running `source` variable starting at `indS`, which equals
`left_boundary (level indS) + offset` because `left_boundary (level i) ≤ i`
holds for every `i`, see `left_boundary_level_le`); while it is inside the
vector, `std::fill` writes `m_data[source]` over `(source, left_boundary (l+1))`
and the loop moves to the next level. -/
def copyRightLoop (data : List α) (l offset : Nat) : List α :=
  if left_boundary l + offset < data.length then
    copyRightLoop
      (fillRange data (left_boundary l + offset + 1) (left_boundary (l + 1))
        (data.getD (left_boundary l + offset) default))
      (l + 1) offset
  else
    data
termination_by data.length - (left_boundary l + offset)
decreasing_by
  have h3 := left_boundary_lt_succ l
  simp only [fillRange_length]
  omega

/-- `recombinantBTree::copySubTreeRight(indS, indT)` (non-recursive version):
checks the level precondition, runs the per-level fill, and returns the
(always empty) vector `ret`.  `offset = indS - left_boundary(level(indS))`
never underflows (`left_boundary_level_le`). -/
def copySubTreeRight (data : List α) (indS indT : Nat) : RunResult α :=
  if level indS = level indT then
    ⟨copyRightLoop data (level indS) (indS - left_boundary (level indS)), none, []⟩
  else
    ⟨data, some .levelMismatch, []⟩

theorem right_boundary_mono {a b : Nat} (h : a ≤ b) :
    right_boundary a ≤ right_boundary b := by
  have h1 := right_boundary_succ_eq a
  have h2 := right_boundary_succ_eq b
  have h3 := left_boundary_mono (show a + 1 ≤ b + 1 by omega)
  omega

theorem right_boundary_succ (l : Nat) :
    right_boundary (l + 1) = right_boundary l + (l + 2) := by
  have h1 := right_boundary_succ_eq l
  have h2 := right_boundary_succ_eq (l + 1)
  have h3 := left_boundary_succ (l + 1)
  omega

theorem two_le_right_boundary {l : Nat} (h : 1 ≤ l) : 2 ≤ right_boundary l := by
  have h1 := right_boundary_mono h
  have h2 : right_boundary 1 = 2 := rfl
  omega

theorem copyLeftLoop_length (data : List α) (l : Nat) :
    (copyLeftLoop data l).1.length = data.length := by
  induction data, l using copyLeftLoop.induct with
  | case1 data l h1 h2 =>
    rw [copyLeftLoop, if_pos h1, if_pos h2]
  | case2 data l h1 h2 ih =>
    rw [copyLeftLoop, if_pos h1, if_neg h2]
    rw [ih, List.length_set]
  | case3 data l h1 =>
    rw [copyLeftLoop, if_neg h1]

/-- Effect of the `copySubTreeLeft` per-level pass started at level `l ≥ 1`:
it finishes without error and the resulting sequence agrees with the original
except at the right boundary of each level from `l` down, which receives the
original value of its left neighbour. -/
theorem copyLeftLoop_spec (data : List α) (l : Nat) (hl : 1 ≤ l) :
    (copyLeftLoop data l).2 = none ∧
    ∀ j, (copyLeftLoop data l).1[j]? =
      if l ≤ level j ∧ j = right_boundary (level j) ∧ j < data.length then
        data[j - 1]?
      else
        data[j]? := by
  induction data, l using copyLeftLoop.induct with
  | case1 data l h1 h2 =>
    exfalso
    have := two_le_right_boundary hl
    omega
  | case2 data l h1 h2 ih =>
    rw [copyLeftLoop, if_pos h1, if_neg h2]
    obtain ⟨ihe, ihg⟩ := ih (by omega)
    refine ⟨ihe, fun j => ?_⟩
    rw [ihg j, List.length_set]
    have hrbl : level (right_boundary l) = l := level_right_boundary l
    have hgap : right_boundary (l + 1) = right_boundary l + (l + 2) :=
      right_boundary_succ l
    by_cases hA : l + 1 ≤ level j ∧ j = right_boundary (level j) ∧ j < data.length
    · -- deeper right-boundary positions: the value read is still the original one
      have hmono : right_boundary (l + 1) ≤ right_boundary (level j) :=
        right_boundary_mono hA.1
      have hne : right_boundary l ≠ j - 1 := by omega
      rw [if_pos hA, List.getElem?_set_ne hne,
        if_pos ⟨by omega, hA.2.1, hA.2.2⟩]
    · rw [if_neg hA]
      by_cases hB : j = right_boundary l
      · -- the position written on this pass
        have hlev : level j = l := by rw [hB]; exact hrbl
        have hv : data[right_boundary l - 1]? =
            some (data.getD (right_boundary l - 1) default) := by
          rw [List.getD_eq_getElem?_getD,
            List.getElem?_eq_getElem (show right_boundary l - 1 < data.length by omega)]
          rfl
        rw [hB, List.getElem?_set, if_pos rfl, if_pos h1,
          if_pos ⟨by omega, by rw [hrbl], h1⟩, hv]
      · have hcond : ¬(l ≤ level j ∧ j = right_boundary (level j) ∧ j < data.length) := by
          rintro ⟨hc1, hc2, hc3⟩
          rcases Nat.lt_or_ge l (level j) with hlt | hge
          · exact hA ⟨by omega, hc2, hc3⟩
          · have hlev : level j = l := by omega
            rw [hlev] at hc2
            exact hB hc2
        rw [if_neg hcond,
          List.getElem?_set_ne (show right_boundary l ≠ j by omega)]
  | case3 data l h1 =>
    rw [copyLeftLoop, if_neg h1]
    refine ⟨rfl, fun j => ?_⟩
    have hcond : ¬(l ≤ level j ∧ j = right_boundary (level j) ∧ j < data.length) := by
      rintro ⟨hc1, hc2, hc3⟩
      have := right_boundary_mono hc1
      omega
    rw [if_neg hcond]

theorem copyRightLoop_length (data : List α) (l offset : Nat) :
    (copyRightLoop data l offset).length = data.length := by
  induction data, l, offset using copyRightLoop.induct with
  | case1 data l offset h1 ih =>
    rw [copyRightLoop, if_pos h1, ih, fillRange_length]
  | case2 data l offset h1 =>
    rw [copyRightLoop, if_neg h1]

/-- Effect of the `copySubTreeRight` per-level pass started at level `l` with
the given within-level `offset`: on every level from `l` down, each position
strictly to the right of that level's source position receives the original
value of the source position, and everything else is untouched. -/
theorem copyRightLoop_spec (data : List α) (l offset : Nat) :
    ∀ j, (copyRightLoop data l offset)[j]? =
      if l ≤ level j ∧ left_boundary (level j) + offset < j ∧ j < data.length then
        data[left_boundary (level j) + offset]?
      else
        data[j]? := by
  induction data, l, offset using copyRightLoop.induct with
  | case1 data l offset h1 ih =>
    intro j
    rw [copyRightLoop, if_pos h1, ih j, fillRange_length]
    have hlb1 : left_boundary l < left_boundary (l + 1) := left_boundary_lt_succ l
    by_cases hA : l + 1 ≤ level j ∧ left_boundary (level j) + offset < j ∧
        j < data.length
    · have hmono : left_boundary (l + 1) ≤ left_boundary (level j) :=
        left_boundary_mono hA.1
      rw [if_pos hA, fillRange_getElem?, if_neg (by omega),
        if_pos ⟨by omega, hA.2.1, hA.2.2⟩]
    · rw [if_neg hA, fillRange_getElem?]
      by_cases hB : left_boundary l + offset + 1 ≤ j ∧ j < left_boundary (l + 1) ∧
          j < data.length
      · have hlev : level j = l := (level_eq_iff j l).2 ⟨by omega, hB.2.1⟩
        have hv : data[left_boundary l + offset]? =
            some (data.getD (left_boundary l + offset) default) := by
          rw [List.getD_eq_getElem?_getD, List.getElem?_eq_getElem h1]
          rfl
        rw [if_pos hB,
          if_pos (show l ≤ level j ∧ left_boundary (level j) + offset < j ∧
              j < data.length by
            rw [hlev]
            exact ⟨le_refl l, by omega, hB.2.2⟩),
          hlev, hv]
      · have hcond : ¬(l ≤ level j ∧ left_boundary (level j) + offset < j ∧
            j < data.length) := by
          rintro ⟨hc1, hc2, hc3⟩
          rcases Nat.lt_or_ge l (level j) with hlt | hge
          · exact hA ⟨by omega, hc2, hc3⟩
          · have hlev : level j = l := by omega
            have hup := lt_left_boundary_succ_level j
            rw [hlev] at hc2 hup
            exact hB ⟨by omega, hup, hc3⟩
        rw [if_neg hB, if_neg hcond]
  | case2 data l offset h1 =>
    intro j
    rw [copyRightLoop, if_neg h1]
    have hcond : ¬(l ≤ level j ∧ left_boundary (level j) + offset < j ∧
        j < data.length) := by
      rintro ⟨hc1, hc2, hc3⟩
      have hmono : left_boundary l ≤ left_boundary (level j) := left_boundary_mono hc1
      omega
    rw [if_neg hcond]

end recombinantBTree

theorem set_getD_self (data : List α) (i : Nat) :
    data.set i (data.getD i default) = data := by
  apply List.ext_getElem?
  intro j
  rw [List.getElem?_set]
  rcases eq_or_ne i j with rfl | hne
  · rcases Nat.lt_or_ge i data.length with hl | hl
    · rw [if_pos rfl, if_pos hl, List.getD_eq_getElem?_getD,
        List.getElem?_eq_getElem hl]
      rfl
    · rw [if_pos rfl, if_neg (by omega), List.getElem?_eq_none hl]
  · rw [if_neg hne]

namespace bTree

theorem copySubTreeAux_fst_length (len : Nat) (data : List α) (indS indT : Nat) :
    (copySubTreeAux len data indS indT).1.length = data.length := by
  induction data, indS, indT using copySubTreeAux.induct with
  | len => exact len
  | case1 data indS indT h1 p h2 ih1 ih2 =>
    rw [copySubTreeAux, if_pos h1]
    simp only [if_pos h2]
    unfold p at ih2
    rw [ih2, ih1, List.length_set]
  | case2 data indS indT h1 h2 ih1 =>
    rw [copySubTreeAux, if_pos h1]
    simp only [if_neg h2]
    rw [ih1, List.length_set]
  | case3 data indS indT h1 =>
    rw [copySubTreeAux, if_neg h1, List.length_set]

/-- Copying a subtree onto itself never changes the backing sequence. -/
theorem copySubTreeAux_self (len : Nat) (data : List α) (indS indT : Nat)
    (h : indS = indT) : (copySubTreeAux len data indS indT).1 = data := by
  induction data, indS, indT using copySubTreeAux.induct with
  | len => exact len
  | case1 data indS indT h1 p h2 ih1 ih2 =>
    subst h
    rw [copySubTreeAux, if_pos h1]
    simp only [if_pos h2]
    unfold p at ih2
    rw [ih2 rfl, ih1 rfl, set_getD_self]
  | case2 data indS indT h1 h2 ih1 =>
    subst h
    rw [copySubTreeAux, if_pos h1]
    simp only [if_neg h2]
    rw [ih1 rfl, set_getD_self]
  | case3 data indS indT h1 =>
    subst h
    rw [copySubTreeAux, if_neg h1, set_getD_self]

/-- The vector of copied target indices depends only on the size and the two
root indices, not on the stored values: the recursion's bounds checks never
inspect `m_data`'s contents. -/
theorem copySubTreeAux_snd_indep (len : Nat) (data data' : List α)
    (indS indT : Nat) :
    (copySubTreeAux len data indS indT).2 = (copySubTreeAux len data' indS indT).2 := by
  induction data, indS, indT using copySubTreeAux.induct generalizing data' with
  | len => exact len
  | case1 data indS indT h1 p h2 ih1 ih2 =>
    rw [copySubTreeAux, if_pos h1]
    conv_rhs => rw [copySubTreeAux, if_pos h1]
    simp only [if_pos h2]
    unfold p at ih2
    rw [ih1 (data'.set indT (data'.getD indS default)),
      ih2 ((copySubTreeAux len (data'.set indT (data'.getD indS default))
        (2 * indS + 1) (2 * indT + 1)).1)]
  | case2 data indS indT h1 h2 ih1 =>
    rw [copySubTreeAux, if_pos h1]
    conv_rhs => rw [copySubTreeAux, if_pos h1]
    simp only [if_neg h2]
    rw [ih1 (data'.set indT (data'.getD indS default))]
  | case3 data indS indT h1 =>
    rw [copySubTreeAux, if_neg h1]
    conv_rhs => rw [copySubTreeAux, if_neg h1]

end bTree

end CopyMachinery

namespace recombinantBTree

theorem right_boundary_lt_numElems {l d : Nat} :
    right_boundary l < numElems d ↔ l ≤ d := by
  have h1 := right_boundary_succ_eq l
  have h2 : numElems d = left_boundary (d + 1) := numElems_eq_left_boundary d
  have h4 := left_boundary_succ l
  constructor
  · intro h
    by_contra hc
    have h3 := left_boundary_mono (show d + 1 ≤ l by omega)
    omega
  · intro h
    have h3 := left_boundary_mono (show l + 1 ≤ d + 1 by omega)
    omega

theorem level_goDownLeft (i : Nat) : level (goDownLeft i) = level i + 1 := by
  have h1 := left_boundary_level_le i
  have h2 := lt_left_boundary_succ_level i
  have h3 := left_boundary_succ (level i)
  have h4 := left_boundary_succ (level i + 1)
  refine (level_eq_iff _ _).2 ⟨?_, ?_⟩ <;>
    · unfold goDownLeft level_size
      omega

theorem level_goDownRight (i : Nat) : level (goDownRight i) = level i + 1 := by
  have h1 := left_boundary_level_le i
  have h2 := lt_left_boundary_succ_level i
  have h3 := left_boundary_succ (level i)
  have h4 := left_boundary_succ (level i + 1)
  refine (level_eq_iff _ _).2 ⟨?_, ?_⟩ <;>
    · unfold goDownRight level_size
      omega

/-- C7: in the binomial tree, for every level `L > 0`, `goUpLeft` fails with
the left-boundary error exactly at the level's left boundary and `goUpRight`
with the right-boundary error at its right boundary, and on every other index
of the level they return `i - level_size i` and `i - level_size i + 1` (the
latter written `i + 1 - level_size i`, its exact `size_t` value). -/
theorem goUp_boundary_binomial (L : Nat) (hL : 0 < L) :
    goUpLeft (left_boundary L) = Except.error TreeError.leftBoundary ∧
    goUpRight (right_boundary L) = Except.error TreeError.rightBoundary ∧
    ∀ i, level i = L →
      (i ≠ left_boundary L → goUpLeft i = Except.ok (i - level_size i)) ∧
      (i ≠ right_boundary L → goUpRight i = Except.ok (i + 1 - level_size i)) := by
  refine ⟨?_, ?_, ?_⟩
  · unfold goUpLeft
    rw [level_left_boundary, if_pos rfl]
  · unfold goUpRight
    rw [level_right_boundary, if_pos rfl]
  · intro i hi
    constructor
    · intro hne
      unfold goUpLeft
      rw [hi, if_neg hne]
    · intro hne
      unfold goUpRight
      rw [hi, if_neg hne]

/-- C7 witness: level 2 of the binomial tree (indices 3, 4, 5). -/
theorem goUp_boundary_binomial_witness :
    goUpLeft (left_boundary 2) = Except.error TreeError.leftBoundary ∧
    goUpRight (right_boundary 2) = Except.error TreeError.rightBoundary ∧
    goUpLeft 4 = Except.ok (4 - level_size 4) ∧
    goUpRight 4 = Except.ok (4 + 1 - level_size 4) := by
  have h4 : level 4 = 2 := (level_eq_iff 4 2).2 (by decide)
  have h := goUp_boundary_binomial 2 (by decide)
  exact ⟨h.1, h.2.1, (h.2.2 4 h4).1 (by decide), (h.2.2 4 h4).2 (by decide)⟩

/-- C5 counterexample: index 4 is interior to level 2 of a depth-3 binomial
tree (both children, indices 7 and 8, are inside the 10-element array), yet
`goUpLeft (goDownLeft 4) = 3 ≠ 4` and `goUpRight (goDownRight 4) = 5 ≠ 4`:
the claimed like-for-like round trips fail. -/
theorem goUpLeft_goDownLeft_not_inverse :
    (4 : Nat) ≠ left_boundary (level 4) ∧
    (4 : Nat) ≠ right_boundary (level 4) ∧
    goDownLeft 4 < numElems 3 ∧
    goDownRight 4 < numElems 3 ∧
    goUpLeft (goDownLeft 4) = Except.ok 3 ∧
    goUpRight (goDownRight 4) = Except.ok 5 := by
  have h4 : level 4 = 2 := (level_eq_iff 4 2).2 (by decide)
  have h7 : level 7 = 3 := (level_eq_iff 7 3).2 (by decide)
  have h8 : level 8 = 3 := (level_eq_iff 8 3).2 (by decide)
  have hdl : goDownLeft 4 = 7 := by
    unfold goDownLeft level_size
    rw [h4]
  have hdr : goDownRight 4 = 8 := by
    unfold goDownRight level_size
    rw [h4]
  refine ⟨by rw [h4]; decide, by rw [h4]; decide, by rw [hdl]; decide,
    by rw [hdr]; decide, ?_, ?_⟩
  · rw [hdl]
    unfold goUpLeft level_size
    rw [h7, if_neg (by decide)]
  · rw [hdr]
    unfold goUpRight level_size
    rw [h8, if_neg (by decide)]

/-- C5 (amended): in the binomial tree the down/up round trips that hold are
the mixed ones — for every non-boundary index `i`,
`goUpRight (goDownLeft i) = i` and `goUpLeft (goDownRight i) = i` (the child
reached by `goDownLeft` keeps `i`'s within-level offset, so `i` is its *right*
parent, and symmetrically for `goDownRight`). -/
theorem goDown_goUp_roundtrip (i : Nat)
    (hL : i ≠ left_boundary (level i))
    (hR : i ≠ right_boundary (level i)) :
    goUpRight (goDownLeft i) = Except.ok i ∧
    goUpLeft (goDownRight i) = Except.ok i := by
  have hle := le_right_boundary_level i
  have hge := left_boundary_level_le i
  have hrs := right_boundary_succ_eq (level i)
  have hls := left_boundary_succ (level i)
  have hrs1 := right_boundary_succ_eq (level i + 1)
  have hls1 := left_boundary_succ (level i + 1)
  constructor
  · have hlev : level (i + (level i + 1)) = level i + 1 := level_goDownLeft i
    show goUpRight (i + (level i + 1)) = Except.ok i
    unfold goUpRight level_size
    rw [hlev, if_neg (by omega)]
    have harith : i + (level i + 1) + 1 - (level i + 1 + 1) = i := by omega
    rw [harith]
  · have hlev : level (i + (level i + 1) + 1) = level i + 1 := level_goDownRight i
    show goUpLeft (i + (level i + 1) + 1) = Except.ok i
    unfold goUpLeft level_size
    rw [hlev, if_neg (by omega)]
    have harith : i + (level i + 1) + 1 - (level i + 1 + 1) = i := by omega
    rw [harith]

/-- C5 witness: the amended round trips at the interior index 4 (level 2). -/
theorem goDown_goUp_roundtrip_witness :
    (4 : Nat) ≠ left_boundary (level 4) ∧
    (4 : Nat) ≠ right_boundary (level 4) ∧
    goUpRight (goDownLeft 4) = Except.ok 4 ∧
    goUpLeft (goDownRight 4) = Except.ok 4 := by
  have h4 : level 4 = 2 := (level_eq_iff 4 2).2 (by decide)
  have hL : (4 : Nat) ≠ left_boundary (level 4) := by rw [h4]; decide
  have hR : (4 : Nat) ≠ right_boundary (level 4) := by rw [h4]; decide
  have h := goDown_goUp_roundtrip 4 hL hR
  exact ⟨hL, hR, h.1, h.2⟩

end recombinantBTree

namespace recombinantTTree

/-- C8: in the trinomial tree, on every level `L > 0`, `goUpLeft` fails with a
boundary error exactly on the two leftmost indices of the level, `goUpRight`
exactly on the two rightmost, and `goUpCenter` exactly on the first and last;
every other index of the level yields `ind - level_size ind`,
`ind - level_size ind + 2` and `ind - level_size ind + 1` respectively (the
latter two written with the addition first, their exact `size_t` values). -/
theorem goUp_boundary_trinomial (L : Nat) (hL : 0 < L) :
    ∀ i, level i = L →
      ((i = left_boundary L ∨ i = left_boundary L + 1) →
        goUpLeft i = Except.error TreeError.leftBoundary) ∧
      (¬(i = left_boundary L ∨ i = left_boundary L + 1) →
        goUpLeft i = Except.ok (i - level_size i)) ∧
      ((i = left_boundary L ∨ i = right_boundary L) →
        goUpCenter i = Except.error TreeError.centerBoundary) ∧
      (¬(i = left_boundary L ∨ i = right_boundary L) →
        goUpCenter i = Except.ok (i + 1 - level_size i)) ∧
      ((i = right_boundary L ∨ i = right_boundary L - 1) →
        goUpRight i = Except.error TreeError.rightBoundary) ∧
      (¬(i = right_boundary L ∨ i = right_boundary L - 1) →
        goUpRight i = Except.ok (i + 2 - level_size i)) := by
  intro i hi
  refine ⟨?_, ?_, ?_, ?_, ?_, ?_⟩
  · intro hcase
    unfold goUpLeft
    rw [hi, if_pos hcase]
  · intro hcase
    unfold goUpLeft
    rw [hi, if_neg hcase]
  · intro hcase
    unfold goUpCenter
    rw [hi, if_pos hcase]
  · intro hcase
    unfold goUpCenter
    rw [hi, if_neg hcase]
  · intro hcase
    unfold goUpRight
    rw [hi, if_pos hcase]
  · intro hcase
    unfold goUpRight
    rw [hi, if_neg hcase]

/-- C8 witness: level 2 of the trinomial tree (indices 4..8): index 4 has no
left or center parent but a right parent, and the interior index 6 has all
three. -/
theorem goUp_boundary_trinomial_witness :
    goUpLeft 4 = Except.error TreeError.leftBoundary ∧
    goUpCenter 4 = Except.error TreeError.centerBoundary ∧
    goUpRight 4 = Except.ok (4 + 2 - level_size 4) ∧
    goUpLeft 6 = Except.ok (6 - level_size 6) ∧
    goUpCenter 6 = Except.ok (6 + 1 - level_size 6) ∧
    goUpRight 6 = Except.ok (6 + 2 - level_size 6) := by
  have h4 : level 4 = 2 := (levelT_eq_iff 4 2).2 (by decide)
  have h6 : level 6 = 2 := (levelT_eq_iff 6 2).2 (by decide)
  have ha := goUp_boundary_trinomial 2 (by decide) 4 h4
  have hb := goUp_boundary_trinomial 2 (by decide) 6 h6
  exact ⟨ha.1 (by decide), ha.2.2.1 (by decide), ha.2.2.2.2.2 (by decide),
    hb.2.1 (by decide), hb.2.2.2.1 (by decide), hb.2.2.2.2.2 (by decide)⟩

end recombinantTTree

theorem numElemsT_eq_left_boundary (d : Nat) :
    recombinantTTree.numElems d = recombinantTTree.left_boundary (d + 1) := by
  unfold recombinantTTree.numElems recombinantTTree.left_boundary
  ring

namespace recombinantBTree

/-- Fidelity of the `level` translation: over the reals,
`round(sqrt(1 + 2*ind) - 1)` — the exact value of the C++ formula — equals
this file's `level`. -/
theorem level_eq_round_sqrt (i : Nat) :
    (level i : ℤ) = round (Real.sqrt (1 + 2 * (i : ℝ)) - 1) := by
  have hk := (level_eq_iff i (level i)).1 rfl
  have ht := two_mul_left_boundary (level i)
  have ht1 := two_mul_left_boundary (level i + 1)
  set k := level i with hdef
  have hA : (2 * k + 1) * (2 * k + 1) ≤ 8 * i + 4 := by
    calc (2 * k + 1) * (2 * k + 1) = 4 * (k * (k + 1)) + 1 := by ring
      _ = 4 * (2 * left_boundary k) + 1 := by rw [ht]
      _ ≤ 8 * i + 4 := by omega
  have hB : 8 * i + 4 < (2 * k + 3) * (2 * k + 3) := by
    calc 8 * i + 4 < 4 * (2 * left_boundary (k + 1)) + 1 := by omega
      _ = 4 * ((k + 1) * (k + 1 + 1)) + 1 := by rw [ht1]
      _ = (2 * k + 3) * (2 * k + 3) := by ring
  have h1 : ((k : ℝ) + 1 / 2) ≤ Real.sqrt (1 + 2 * i) := by
    rw [Real.le_sqrt' (by positivity)]
    have hc : ((2 * k + 1 : ℕ) : ℝ) * ((2 * k + 1 : ℕ) : ℝ) ≤ ((8 * i + 4 : ℕ) : ℝ) := by
      exact_mod_cast hA
    push_cast at hc
    nlinarith
  have h2 : Real.sqrt (1 + 2 * i) < (k : ℝ) + 3 / 2 := by
    rw [Real.sqrt_lt' (by positivity)]
    have hc : ((8 * i + 4 : ℕ) : ℝ) < ((2 * k + 3 : ℕ) : ℝ) * ((2 * k + 3 : ℕ) : ℝ) := by
      exact_mod_cast hB
    push_cast at hc
    nlinarith
  rw [round_eq]
  have harr : Real.sqrt (1 + 2 * i) - 1 + 1 / 2 = Real.sqrt (1 + 2 * i) - 1 / 2 := by
    ring
  rw [harr]
  symm
  rw [Int.floor_eq_iff]
  constructor
  · push_cast
    linarith
  · push_cast
    linarith

end recombinantBTree

namespace recombinantTTree

/-- Fidelity of the trinomial `level` translation: over the reals,
`floor(sqrt(ind))` — the exact value of the C++ formula — equals this file's
`level`. -/
theorem level_eq_floor_sqrt (i : Nat) :
    (level i : ℤ) = ⌊Real.sqrt (i : ℝ)⌋ :=
  Real.floor_real_sqrt_eq_nat_sqrt.symm

end recombinantTTree

/-- C3: for both recombinant variants the closed-form level recovery is the
exact inverse of the layout — every valid index lies between the boundaries of
its computed level, the per-level intervals tile `[0, totalElems)` exactly
(`left_boundary 0 = 0`, each right boundary is followed by the next left
boundary, and the last right boundary is the last element), and the computed
level is the unique level whose interval contains the index. -/
theorem level_partition :
    (∀ d i, i < recombinantBTree.numElems d →
      recombinantBTree.left_boundary (recombinantBTree.level i) ≤ i ∧
      i ≤ recombinantBTree.right_boundary (recombinantBTree.level i) ∧
      recombinantBTree.level i ≤ d) ∧
    (recombinantBTree.left_boundary 0 = 0 ∧
      ∀ L, recombinantBTree.right_boundary L + 1 = recombinantBTree.left_boundary (L + 1)) ∧
    (∀ d, recombinantBTree.right_boundary d + 1 = recombinantBTree.numElems d) ∧
    (∀ i L, recombinantBTree.left_boundary L ≤ i →
      i ≤ recombinantBTree.right_boundary L → recombinantBTree.level i = L) ∧
    (∀ d i, i < recombinantTTree.numElems d →
      recombinantTTree.left_boundary (recombinantTTree.level i) ≤ i ∧
      i ≤ recombinantTTree.right_boundary (recombinantTTree.level i) ∧
      recombinantTTree.level i ≤ d) ∧
    (recombinantTTree.left_boundary 0 = 0 ∧
      ∀ L, recombinantTTree.right_boundary L + 1 = recombinantTTree.left_boundary (L + 1)) ∧
    (∀ d, recombinantTTree.right_boundary d + 1 = recombinantTTree.numElems d) ∧
    ∀ i L, recombinantTTree.left_boundary L ≤ i →
      i ≤ recombinantTTree.right_boundary L → recombinantTTree.level i = L := by
  refine ⟨?_, ⟨rfl, recombinantBTree.right_boundary_succ_eq⟩, ?_, ?_, ?_,
    ⟨rfl, recombinantTTree.right_boundaryT_succ_eq⟩, ?_, ?_⟩
  · intro d i h
    refine ⟨recombinantBTree.left_boundary_level_le i,
      recombinantBTree.le_right_boundary_level i, ?_⟩
    by_contra hc
    have h1 := recombinantBTree.left_boundary_mono
      (show d + 1 ≤ recombinantBTree.level i by omega)
    have h2 := recombinantBTree.left_boundary_level_le i
    have h3 := recombinantBTree.numElems_eq_left_boundary d
    omega
  · intro d
    exact (recombinantBTree.right_boundary_succ_eq d).trans
      (recombinantBTree.numElems_eq_left_boundary d).symm
  · intro i L h1 h2
    refine (recombinantBTree.level_eq_iff i L).2 ⟨h1, ?_⟩
    have := recombinantBTree.right_boundary_succ_eq L
    omega
  · intro d i h
    refine ⟨recombinantTTree.left_boundaryT_level_le i,
      recombinantTTree.le_right_boundaryT_level i, ?_⟩
    by_contra hc
    have h1 : (d + 1) * (d + 1) ≤ recombinantTTree.level i * recombinantTTree.level i :=
      Nat.mul_le_mul (by omega) (by omega)
    have h2 : recombinantTTree.level i * recombinantTTree.level i ≤ i :=
      recombinantTTree.left_boundaryT_level_le i
    have h3 : recombinantTTree.numElems d = (1 + d) * (1 + d) := rfl
    have h4 : (1 + d) * (1 + d) = (d + 1) * (d + 1) := by ring
    omega
  · intro d
    exact (recombinantTTree.right_boundaryT_succ_eq d).trans
      (numElemsT_eq_left_boundary d).symm
  · intro i L h1 h2
    refine (recombinantTTree.levelT_eq_iff i L).2 ⟨h1, ?_⟩
    have := recombinantTTree.right_boundaryT_succ_eq L
    omega

/-- C3 witness: concrete instances of the partition and uniqueness facts at
index 4 (binomial depth-3 tree) and index 5 (trinomial depth-3 tree). -/
theorem level_partition_witness :
    (recombinantBTree.left_boundary (recombinantBTree.level 4) ≤ 4 ∧
      4 ≤ recombinantBTree.right_boundary (recombinantBTree.level 4) ∧
      recombinantBTree.level 4 ≤ 3) ∧
    recombinantBTree.level 4 = 2 ∧
    (recombinantTTree.left_boundary (recombinantTTree.level 5) ≤ 5 ∧
      5 ≤ recombinantTTree.right_boundary (recombinantTTree.level 5) ∧
      recombinantTTree.level 5 ≤ 3) ∧
    recombinantTTree.level 5 = 2 := by
  have h := level_partition
  exact ⟨h.1 3 4 (by decide), h.2.2.2.1 4 2 (by decide) (by decide),
    h.2.2.2.2.1 3 5 (by decide), h.2.2.2.2.2.2.2 5 2 (by decide) (by decide)⟩

/-- C4: for every depth the constructed tree's `totalElems` equals the
variant's closed form — `2^(depth+1) - 1` (binary), `(depth+1)(depth+2)/2`
(binomial), `(depth+1)²` (trinomial); in particular a depth-2 binomial tree
has 6 nodes and a depth-0 tree of any variant has exactly one node. -/
theorem totalElems_closed_forms :
    (∀ d, (bTree.ofDepth ℕ d).totalElems = 2 ^ (d + 1) - 1) ∧
    (∀ d, (recombinantBTree.ofDepth ℕ d).totalElems = (d + 1) * (d + 2) / 2) ∧
    (∀ d, (recombinantTTree.ofDepth ℕ d).totalElems = (d + 1) ^ 2) ∧
    (recombinantBTree.ofDepth ℕ 2).totalElems = 6 ∧
    (bTree.ofDepth ℕ 0).totalElems = 1 ∧
    (recombinantBTree.ofDepth ℕ 0).totalElems = 1 ∧
    (recombinantTTree.ofDepth ℕ 0).totalElems = 1 := by
  refine ⟨fun d => ?_, fun d => ?_, fun d => ?_, by decide, by decide, by decide,
    by decide⟩
  · show (List.replicate (bTree.numElems d) (default : ℕ)).length = 2 ^ (d + 1) - 1
    rw [List.length_replicate]
    rfl
  · show (List.replicate (recombinantBTree.numElems d) (default : ℕ)).length =
      (d + 1) * (d + 2) / 2
    rw [List.length_replicate]
    have h1 := recombinantBTree.arithm_sum_one_one (d + 1)
    have h2 : (d + 1) * (d + 1 + 1) = (d + 1) * (d + 2) := by ring
    unfold recombinantBTree.numElems
    omega
  · show (List.replicate (recombinantTTree.numElems d) (default : ℕ)).length =
      (d + 1) ^ 2
    rw [List.length_replicate]
    show (1 + d) * (1 + d) = (d + 1) ^ 2
    ring

/-- C9: on a 15-node (depth-3) binary tree, `copySubTree(0, 0)` leaves the
backing sequence unchanged and returns exactly the 15 valid indices, each
once, in left-first depth-first pre-order starting with 0. -/
theorem copySubTree_depth3_preorder {α : Type} [Inhabited α] (data : List α)
    (h : data.length = 15) :
    (bTree.copySubTree data 0 0).1 = data ∧
    (bTree.copySubTree data 0 0).2 =
      [0, 1, 3, 7, 8, 4, 9, 10, 2, 5, 11, 12, 6, 13, 14] ∧
    (bTree.copySubTree data 0 0).2.Nodup ∧
    ∀ k, k ∈ (bTree.copySubTree data 0 0).2 ↔ k < 15 := by
  unfold bTree.copySubTree
  rw [h]
  have hret : (bTree.copySubTreeAux 15 data 0 0).2 =
      (bTree.copySubTreeAux 15 (List.replicate 15 (default : α)) 0 0).2 :=
    bTree.copySubTreeAux_snd_indep 15 data _ 0 0
  have hconc : (bTree.copySubTreeAux 15 (List.replicate 15 (default : α)) 0 0).2 =
      [0, 1, 3, 7, 8, 4, 9, 10, 2, 5, 11, 12, 6, 13, 14] := by
    simp +decide [bTree.copySubTreeAux]
  refine ⟨bTree.copySubTreeAux_self 15 data 0 0 rfl, hret.trans hconc, ?_, ?_⟩
  · rw [hret, hconc]
    decide
  · intro k
    rw [hret, hconc]
    simp only [List.mem_cons, List.not_mem_nil, or_false]
    omega

/-- C9 witness: the scenario at a concrete 15-element sequence. -/
theorem copySubTree_depth3_preorder_witness :
    (List.range 15).length = 15 ∧
    (bTree.copySubTree (List.range 15) 0 0).1 = List.range 15 ∧
    (bTree.copySubTree (List.range 15) 0 0).2 =
      [0, 1, 3, 7, 8, 4, 9, 10, 2, 5, 11, 12, 6, 13, 14] := by
  have h := copySubTree_depth3_preorder (List.range 15) (by decide)
  exact ⟨by decide, h.1, h.2.1⟩

namespace recombinantBTree

variable {α : Type} [Inhabited α]

/-- C6: when source and target are on different levels, both subtree-copy
operations of the binomial tree fail with the level-mismatch error and leave
the backing sequence (and the returned vector) exactly as they were: the
check precedes any mutation. -/
theorem copySubTree_level_mismatch (data : List α) (indS indT : Nat)
    (h : level indS ≠ level indT) :
    copySubTreeLeft data indS indT =
      ⟨data, some TreeError.levelMismatch, []⟩ ∧
    copySubTreeRight data indS indT =
      ⟨data, some TreeError.levelMismatch, []⟩ := by
  unfold copySubTreeLeft copySubTreeRight
  rw [if_neg h, if_neg h]
  exact ⟨rfl, rfl⟩

/-- C6 witness: indices 0 (level 0) and 1 (level 1) on a depth-1 tree. -/
theorem copySubTree_level_mismatch_witness :
    copySubTreeLeft ([10, 11, 12] : List ℕ) 0 1 =
      ⟨[10, 11, 12], some TreeError.levelMismatch, []⟩ ∧
    copySubTreeRight ([10, 11, 12] : List ℕ) 0 1 =
      ⟨[10, 11, 12], some TreeError.levelMismatch, []⟩ := by
  have h0 : level 0 = 0 := (level_eq_iff 0 0).2 (by decide)
  have h1 : level 1 = 1 := (level_eq_iff 1 1).2 (by decide)
  exact copySubTree_level_mismatch ([10, 11, 12] : List ℕ) 0 1 (by omega)

/-- C10: for same-level source and target the index vector returned by both
`copySubTreeLeft` and `copySubTreeRight` is the empty list — the non-recursive
implementations never push into `ret`, regardless of how many positions they
write. -/
theorem copySubTree_recombinant_ret_empty (data : List α) (indS indT : Nat)
    (h : level indS = level indT) :
    (copySubTreeLeft data indS indT).ret = [] ∧
    (copySubTreeRight data indS indT).ret = [] := by
  unfold copySubTreeLeft copySubTreeRight
  rw [if_pos h, if_pos h]
  exact ⟨rfl, rfl⟩

/-- C10 witness: a same-level call (indices 1 and 2, both level 1) that does
write tree positions still returns the empty vector. -/
theorem copySubTree_recombinant_ret_empty_witness :
    (copySubTreeLeft ([10, 11, 12] : List ℕ) 1 2).ret = [] ∧
    (copySubTreeRight ([10, 11, 12] : List ℕ) 1 2).ret = [] := by
  have h1 : level 1 = 1 := (level_eq_iff 1 1).2 (by decide)
  have h2 : level 2 = 1 := (level_eq_iff 2 1).2 (by decide)
  exact copySubTree_recombinant_ret_empty ([10, 11, 12] : List ℕ) 1 2 (by omega)

/-- C1 counterexample: for `src = dst = 0` (same level, and `dst` is the left
boundary of level 0) on a depth-1 tree, the claim's per-level description is
ill-formed at level 0 — `right_boundary 0 - 1` underflows `size_t`, the C++
reads `m_data[SIZE_MAX]` out of bounds, and no level (in particular not
level 1) receives the claimed write: `data[right_boundary 1]` still holds its
original value `2`, not its left neighbour's value `1`. -/
theorem copySubTreeLeft_level_zero_oob :
    level 0 = level 0 ∧
    (0 : Nat) = left_boundary (level 0) ∧
    ([0, 1, 2] : List ℕ).length = numElems 1 ∧
    (copySubTreeLeft ([0, 1, 2] : List ℕ) 0 0).err = some TreeError.oobAccess ∧
    (copySubTreeLeft ([0, 1, 2] : List ℕ) 0 0).data[right_boundary 1]? = some 2 ∧
    ([0, 1, 2] : List ℕ)[right_boundary 1 - 1]? = some 1 := by
  have h0 : level 0 = 0 := (level_eq_iff 0 0).2 (by decide)
  have heval : copySubTreeLeft ([0, 1, 2] : List ℕ) 0 0 =
      ⟨[0, 1, 2], some TreeError.oobAccess, []⟩ := by
    unfold copySubTreeLeft
    rw [if_pos rfl, h0, copyLeftLoop, if_pos (by decide), if_pos (by decide)]
  refine ⟨rfl, by rw [h0]; decide, by decide, by rw [heval], ?_, by decide⟩
  rw [heval]
  decide

/-- C1 (amended): for same-level `src`, `dst` with `dst` the left boundary of
`src`'s level and `level src ≥ 1`, `copySubTreeLeft` finishes without error
and, for every level `l` from `level src` down to the tree's deepest level,
overwrites exactly the right-boundary position of `l` with the pre-call value
of its left neighbour — every other position is untouched, so afterwards
every such rightmost node equals its immediate left sibling.  (The amendment
excludes `level src = 0`, where the C++ performs an out-of-bounds read, see
the counterexample.) -/
theorem copySubTreeLeft_left_target_spec (depth : Nat) (data : List α)
    (src dst : Nat)
    (hlen : data.length = numElems depth)
    (hlev : level src = level dst)
    (hdst : dst = left_boundary (level src))
    (hpos : 1 ≤ level src)
    (hsrc : src < data.length) :
    (copySubTreeLeft data src dst).err = none ∧
    (∀ l, level src ≤ l → l ≤ depth →
      (copySubTreeLeft data src dst).data[right_boundary l]? =
        data[right_boundary l - 1]?) ∧
    (∀ j, j < data.length →
      ¬(level src ≤ level j ∧ j = right_boundary (level j)) →
      (copySubTreeLeft data src dst).data[j]? = data[j]?) ∧
    (∀ l, level src ≤ l → l ≤ depth →
      (copySubTreeLeft data src dst).data[right_boundary l]? =
        (copySubTreeLeft data src dst).data[right_boundary l - 1]?) := by
  obtain ⟨he, hg⟩ := copyLeftLoop_spec data (level src) hpos
  have hrun : copySubTreeLeft data src dst =
      ⟨(copyLeftLoop data (level src)).1, (copyLeftLoop data (level src)).2, []⟩ := by
    unfold copySubTreeLeft
    rw [if_pos hlev]
  rw [hrun]
  refine ⟨he, ?_, ?_, ?_⟩
  · intro l hl hld
    have hlt : right_boundary l < numElems depth := right_boundary_lt_numElems.2 hld
    have hlrb := level_right_boundary l
    rw [hg (right_boundary l), if_pos ⟨by omega, by rw [hlrb], by omega⟩]
  · intro j hj hcond
    rw [hg j, if_neg (fun hc => hcond ⟨hc.1, hc.2.1⟩)]
  · intro l hl hld
    have hlt : right_boundary l < numElems depth := right_boundary_lt_numElems.2 hld
    have hlrb := level_right_boundary l
    have h2rb : 2 ≤ right_boundary l := two_le_right_boundary (by omega)
    have hsucc := right_boundary_succ_eq l
    have hlbs := left_boundary_succ l
    have hlev' : level (right_boundary l - 1) = l :=
      (level_eq_iff _ _).2 ⟨by omega, by omega⟩
    rw [hg (right_boundary l), if_pos ⟨by omega, by rw [hlrb], by omega⟩,
      hg (right_boundary l - 1), if_neg (by rw [hlev']; omega)]

/-- C1 witness: depth-2 binomial tree, `src = dst = 1` (the left boundary of
level 1): the pass rewrites indices 2 and 5 (the right boundaries of levels 1
and 2) from their left neighbours and nothing else. -/
theorem copySubTreeLeft_left_target_spec_witness :
    (copySubTreeLeft ([10, 11, 12, 13, 14, 15] : List ℕ) 1 1).err = none ∧
    (copySubTreeLeft ([10, 11, 12, 13, 14, 15] : List ℕ) 1 1).data[right_boundary 2]? =
      ([10, 11, 12, 13, 14, 15] : List ℕ)[right_boundary 2 - 1]? ∧
    (copySubTreeLeft ([10, 11, 12, 13, 14, 15] : List ℕ) 1 1).data[right_boundary 2]? =
      (copySubTreeLeft ([10, 11, 12, 13, 14, 15] : List ℕ) 1 1).data[right_boundary 2 - 1]? := by
  have hl1 : level 1 = 1 := (level_eq_iff 1 1).2 (by decide)
  have h := copySubTreeLeft_left_target_spec 2 ([10, 11, 12, 13, 14, 15] : List ℕ) 1 1
    (by decide) rfl (by rw [hl1]; decide) (by omega) (by decide)
  exact ⟨h.1, h.2.1 2 (by omega) (by omega), h.2.2.2 2 (by omega) (by omega)⟩

/-- C2: for same-level `src`, `dst`, `copySubTreeRight` finishes without
error; on every level from `src`'s level down, the positions up to and
including that level's source position `left_boundary l + offset`
(`offset = src - left_boundary (level src)`) are unchanged, every position
strictly to its right within the level receives the pre-call value of the
source position, and all shallower levels are untouched. -/
theorem copySubTreeRight_propagation (depth : Nat) (data : List α)
    (src dst : Nat)
    (hlen : data.length = numElems depth)
    (hlev : level src = level dst)
    (hsrc : src < data.length) :
    (copySubTreeRight data src dst).err = none ∧
    ∀ j, j < data.length →
      (copySubTreeRight data src dst).data[j]? =
        if level src ≤ level j ∧
            left_boundary (level j) + (src - left_boundary (level src)) < j then
          data[left_boundary (level j) + (src - left_boundary (level src))]?
        else
          data[j]? := by
  have hrun : copySubTreeRight data src dst =
      ⟨copyRightLoop data (level src) (src - left_boundary (level src)), none, []⟩ := by
    unfold copySubTreeRight
    rw [if_pos hlev]
  rw [hrun]
  refine ⟨rfl, ?_⟩
  intro j hj
  rw [copyRightLoop_spec data (level src) (src - left_boundary (level src)) j]
  by_cases hc : level src ≤ level j ∧
      left_boundary (level j) + (src - left_boundary (level src)) < j
  · rw [if_pos ⟨hc.1, hc.2, hj⟩, if_pos hc]
  · rw [if_neg (fun hx => hc ⟨hx.1, hx.2.1⟩), if_neg hc]

/-- C2 witness: depth-2 binomial tree, `src = 4`, `dst = 3` (both level 2,
offset 1): position 5 — the only position right of the source on a level at
or below level 2 — receives the pre-call value of position 4. -/
theorem copySubTreeRight_propagation_witness :
    (copySubTreeRight ([10, 11, 12, 13, 14, 15] : List ℕ) 4 3).err = none ∧
    (copySubTreeRight ([10, 11, 12, 13, 14, 15] : List ℕ) 4 3).data[5]? = some 14 := by
  have h4 : level 4 = 2 := (level_eq_iff 4 2).2 (by decide)
  have h3 : level 3 = 2 := (level_eq_iff 3 2).2 (by decide)
  have h5 : level 5 = 2 := (level_eq_iff 5 2).2 (by decide)
  have h := copySubTreeRight_propagation 2 ([10, 11, 12, 13, 14, 15] : List ℕ) 4 3
    (by decide) (by omega) (by decide)
  refine ⟨h.1, ?_⟩
  rw [h.2 5 (by decide), if_pos ⟨by omega, by rw [h5, h4]; decide⟩, h5, h4]
  decide

end recombinantBTree

end cm
